import Mathlib

/-!
Shallow embedding of the job queue, merchant-category cache, decision engine
and worker loop of the firefly-iii-ai-categorize service
(src/services/queue.ts, src/services/llm.ts, src/worker.ts).

Timestamps (`CURRENT_TIMESTAMP`) are modelled as a `now : Nat` parameter
passed to every operation that writes one.  The SQLite `jobs` table is a
list of `Job` rows in rowid (insertion) order; the `merchant_categories`
table is a list of `CachedCategory` rows with the merchant name as key.
-/

set_option maxHeartbeats 1000000

/-- Job status column: one of `pending`, `processing`, `completed`, `failed`. -/
inductive JobStatus where
  | pending
  | processing
  | completed
  | failed
deriving DecidableEq, Repr

/-- A row of the `jobs` table (interface `Job` in queue.ts). -/
structure Job where
  id : Nat
  transactionId : String
  merchantName : String
  description : String
  amount : String
  tags : String
  status : JobStatus
  attempts : Nat
  error : Option String
  createdAt : Nat
  updatedAt : Nat
deriving DecidableEq, Repr

/-- A row of the `merchant_categories` table (interface `CachedCategory`). -/
structure CachedCategory where
  merchantName : String
  categoryName : String
  categoryId : String
  createdAt : Nat
  updatedAt : Nat
deriving DecidableEq, Repr

/-- Firefly category (interface `Category` in firefly.ts). -/
structure Category where
  id : String
  name : String
deriving DecidableEq, Repr

/-- Recent-transaction snapshot (interface `TransactionInfo` in firefly.ts);
`categoryId`/`categoryName` are `string | null`. -/
structure TransactionInfo where
  id : String
  description : String
  destinationName : String
  categoryId : Option String
  categoryName : Option String
  amount : String
  date : String
deriving DecidableEq, Repr

/-- JavaScript `s.toLowerCase()` (ASCII case mapping). -/
def strToLower (s : String) : String :=
  String.mk (s.data.map Char.toLower)

/-- JavaScript `s.trim()`: strip leading and trailing whitespace. -/
def strTrim (s : String) : String :=
  String.mk
    (((s.data.dropWhile Char.isWhitespace).reverse.dropWhile
        Char.isWhitespace).reverse)

/-- JavaScript truthiness of a `string | null` value: `null` and the empty
string are falsy. -/
def truthy : Option String → Bool
  | none => false
  | some s => !s.data.isEmpty

namespace QueueService

/-- Embeds `init`: UPDATE jobs SET status = pending, updated_at =
CURRENT_TIMESTAMP WHERE status = processing — reset jobs stuck in
processing after a crash. -/
def init (now : Nat) (jobs : List Job) : List Job :=
  jobs.map fun x =>
    if x.status = JobStatus.processing then
      { x with status := JobStatus.pending, updatedAt := now }
    else x

/-- Embeds `enqueue`: INSERT a fresh `pending` row with attempts 0 and an
AUTOINCREMENT id. -/
def enqueue (now : Nat) (transactionId merchantName description amount tags : String)
    (jobs : List Job) : List Job :=
  let newId := (jobs.map Job.id).foldl max 0 + 1
  jobs ++ [{ id := newId, transactionId := transactionId, merchantName := merchantName,
             description := description, amount := amount, tags := tags,
             status := JobStatus.pending, attempts := 0, error := none,
             createdAt := now, updatedAt := now }]

/-- Embeds SELECT * FROM jobs WHERE status = pending ORDER BY created_at
ASC LIMIT 1: the pending row with the least `createdAt`; ties resolved in
rowid (list) order. -/
def oldestPending : List Job → Option Job
  | [] => none
  | x :: rest =>
    if x.status = JobStatus.pending then
      match oldestPending rest with
      | none => some x
      | some k => if k.createdAt < x.createdAt then some k else some x
    else oldestPending rest

/-- Embeds `dequeue`: select the oldest pending row, mark the stored row
`processing` with `attempts + 1`, and return the row object built from the
fields as SELECTed (so its `status` and `updatedAt` are the pre-update
values) with `attempts` incremented. -/
def dequeue (now : Nat) (jobs : List Job) : Option Job × List Job :=
  match oldestPending jobs with
  | none => (none, jobs)
  | some row =>
    (some { row with attempts := row.attempts + 1 },
     jobs.map fun x =>
       if x.id = row.id then
         { x with status := JobStatus.processing, attempts := x.attempts + 1,
                  updatedAt := now }
       else x)

/-- Embeds `complete`: UPDATE jobs SET status = completed, updated_at =
CURRENT_TIMESTAMP WHERE id = ? (unconditional on the current status). -/
def complete (now : Nat) (jobId : Nat) (jobs : List Job) : List Job :=
  jobs.map fun x =>
    if x.id = jobId then { x with status := JobStatus.completed, updatedAt := now }
    else x

/-- Embeds `fail`: read the current attempts of the row (0 when absent);
retry to `pending` while `attempts < maxRetries`, else terminal `failed`;
record the error either way. -/
def fail (now : Nat) (jobId : Nat) (error : String) (maxRetries : Nat)
    (jobs : List Job) : List Job :=
  let attempts := match jobs.find? (fun x => x.id = jobId) with
    | some j => j.attempts
    | none => 0
  if attempts < maxRetries then
    jobs.map fun x =>
      if x.id = jobId then
        { x with status := JobStatus.pending, error := some error, updatedAt := now }
      else x
  else
    jobs.map fun x =>
      if x.id = jobId then
        { x with status := JobStatus.failed, error := some error, updatedAt := now }
      else x

/-- Embeds `getPendingCount`: SELECT COUNT(*) FROM jobs WHERE status =
pending. -/
def getPendingCount (jobs : List Job) : Nat :=
  (jobs.filter fun x => x.status = JobStatus.pending).length

end QueueService

namespace CacheService

/-- Embeds `get`: SELECT ... FROM merchant_categories WHERE merchant_name
= ?. -/
def get (merchantName : String) (cache : List CachedCategory) : Option CachedCategory :=
  cache.find? fun e => e.merchantName = merchantName

/-- Embeds `set`: INSERT with ON CONFLICT(merchant_name) DO UPDATE — an
upsert that
overwrites `category_name`, `category_id` and `updated_at`, preserving
`created_at` of an existing row. -/
def set (merchantName categoryName categoryId : String) (now : Nat)
    (cache : List CachedCategory) : List CachedCategory :=
  if cache.any (fun e => e.merchantName = merchantName) then
    cache.map fun e =>
      if e.merchantName = merchantName then
        { e with categoryName := categoryName, categoryId := categoryId, updatedAt := now }
      else e
  else
    cache ++ [{ merchantName := merchantName, categoryName := categoryName,
                categoryId := categoryId, createdAt := now, updatedAt := now }]

/-- Embeds `updateFromOverride`: UPDATE merchant_categories SET
category_name = ?, category_id = ?, updated_at = ... WHERE merchant_name
= ? (update-only). -/
def updateFromOverride (merchantName categoryName categoryId : String) (now : Nat)
    (cache : List CachedCategory) : List CachedCategory :=
  cache.map fun e =>
    if e.merchantName = merchantName then
      { e with categoryName := categoryName, categoryId := categoryId, updatedAt := now }
    else e

/-- Embeds `invalidate`: DELETE FROM merchant_categories WHERE
merchant_name = ?. -/
def invalidate (merchantName : String) (cache : List CachedCategory) :
    List CachedCategory :=
  cache.filter fun e => !(e.merchantName = merchantName : Bool)

end CacheService

/-- Parsed classifier reply (interface `LLMResponse` in llm.ts). -/
inductive Confidence where
  | high
  | medium
  | low
deriving DecidableEq, Repr

/-- Structure `LLMResponse`: the proposed category of the classifier (or
none) plus metadata. -/
structure LLMResponse where
  category : Option String
  confidence : Confidence
  reasoning : String
deriving DecidableEq, Repr

/-- Tests for the double-quote and single-quote characters matched by the
quote-stripping regex in `parseResponse`. -/
def isQuoteChar (c : Char) : Bool := c = Char.ofNat 34 || c = Char.ofNat 39

/-- Drop one leading quote character, as the anchored-start alternative of
the regex does. -/
def stripLeadQuote (s : String) : String :=
  match s.data with
  | c :: rest => if isQuoteChar c then String.mk rest else s
  | [] => s

/-- Drop one trailing quote character, as the anchored-end alternative of
the regex does. -/
def stripTrailQuote (s : String) : String :=
  match s.data.getLast? with
  | some c => if isQuoteChar c then String.mk s.data.dropLast else s
  | none => s

/-- Embeds the cleaning step of `parseResponse`: trim whitespace, then
strip one leading and one trailing quote character. -/
def cleanResponse (content : String) : String :=
  stripTrailQuote (stripLeadQuote (strTrim content))

/-- Holds iff the first list is an initial segment of the second (helper
for the JavaScript string inclusion test). -/
def listIsPre : List Char → List Char → Bool
  | [], _ => true
  | _ :: _, [] => false
  | a :: as, b :: bs => a = b && listIsPre as bs

/-- Holds iff `needle` occurs as a contiguous segment of the second list. -/
def listHas (needle : List Char) : List Char → Bool
  | [] => listIsPre needle []
  | c :: rest => listIsPre needle (c :: rest) || listHas needle rest

/-- Embeds the JavaScript test that `hay` contains `needle`. -/
def strIncludes (hay needle : String) : Bool :=
  listHas needle.data hay.data

namespace LLMService

/-- Embeds `parseResponse(content, validCategories)`: clean the reply, try
an exact
case-insensitive match against the category names, then a case-insensitive
substring match in either direction, else report an invalid category. -/
def parseResponse (content : String) (validCategories : List String) : LLMResponse :=
  let cleaned := cleanResponse content
  match validCategories.find? (fun c => strToLower c = strToLower cleaned) with
  | some exactMatch =>
    { category := some exactMatch, confidence := Confidence.high,
      reasoning := "Exact match from LLM" }
  | none =>
    match validCategories.find? (fun c =>
        strIncludes (strToLower c) (strToLower cleaned)
        || strIncludes (strToLower cleaned) (strToLower c)) with
    | some partialMatch =>
      { category := some partialMatch, confidence := Confidence.medium,
        reasoning := "Partial match: \"" ++ cleaned ++ "\" -> \"" ++ partialMatch ++ "\"" }
    | none =>
      { category := none, confidence := Confidence.low,
        reasoning := "Invalid response: \"" ++ cleaned ++ "\"" }

/-- Embeds `categorize`: prompts aside, the reply `content` the model
produces is parsed against the names of the supplied categories. -/
def categorize (categories : List Category) (content : String) : LLMResponse :=
  parseResponse content (categories.map Category.name)

end LLMService

/-- Type `CategoryDecision` in worker.ts: the four decision kinds. -/
inductive CategoryDecision where
  | cache (categoryId categoryName : String)
  | fireflyOverride (categoryId categoryName : String)
  | llm (categoryId categoryName : String)
  | skip (reason : String)
deriving DecidableEq, Repr

/-- A write performed on the merchant cache during one decision. -/
inductive CacheEffect where
  | invalidate (merchantName : String)
  | updateFromOverride (merchantName categoryName categoryId : String)
  | set (merchantName categoryName categoryId : String)
deriving DecidableEq, Repr

/-- The collaborator responses observed during one decision: the fetched
category list, the recent-transaction history for the merchant, the optional
web-search context, the raw text the classifier replies with, and whether
the transaction-update call succeeds. -/
structure Env where
  categories : List Category
  recentTxns : List TransactionInfo
  merchantContext : Option String
  llmContent : String
  updateSucceeds : Bool
deriving Repr

/-- The `categorized` subset of `analyzeHistory`: history transactions with a
truthy category id and a truthy category name. -/
def categorizedOf (recentTxns : List TransactionInfo) : List TransactionInfo :=
  recentTxns.filter fun tx => truthy tx.categoryId && truthy tx.categoryName

/-- Embeds `analyzeHistory(cached, recentTxns)`: compare the category names
of the categorized subset with the cached one; unanimous disagreement
yields an override taken from the first (most recent) categorized
transaction. -/
def analyzeHistory (cached : CachedCategory) (recentTxns : List TransactionInfo) :
    CategoryDecision :=
  let categorized := categorizedOf recentTxns
  match categorized with
  | [] => CategoryDecision.cache cached.categoryId cached.categoryName
  | mostRecent :: _ =>
    if categorized.all (fun tx => tx.categoryName = some cached.categoryName) then
      CategoryDecision.cache cached.categoryId cached.categoryName
    else if categorized.all (fun tx => !(tx.categoryName = some cached.categoryName : Bool)) then
      CategoryDecision.fireflyOverride (mostRecent.categoryId.getD "")
        (mostRecent.categoryName.getD "")
    else
      CategoryDecision.cache cached.categoryId cached.categoryName

/-- The model-assisted tail of `decideCategory` (worker.ts step 3): call the
classifier; the guard on the result uses JavaScript falsiness, so an absent
proposal and an empty-string proposal both skip; otherwise resolve the
proposal by exact name equality against the fetched categories and cache
the resolved mapping, or skip when unresolvable. -/
def llmPath (env : Env) (cache : List CachedCategory) (merchantName : String)
    (now : Nat) : CategoryDecision × List CachedCategory × List CacheEffect :=
  let llmResult := LLMService.categorize env.categories env.llmContent
  if !truthy llmResult.category then
    (CategoryDecision.skip "LLM could not determine category", cache, [])
  else
    let catName := llmResult.category.getD ""
    match env.categories.find? (fun c => c.name = catName) with
    | none =>
      (CategoryDecision.skip ("Category \"" ++ catName ++ "\" not found"), cache, [])
    | some category =>
      (CategoryDecision.llm category.id category.name,
       CacheService.set merchantName category.name category.id now cache,
       [CacheEffect.set merchantName category.name category.id])

/-- Embeds `decideCategory(merchantName, ...)`: fetch categories (skip when
empty),
consult the cache (invalidating a stale entry), analyze history on a valid
hit (persisting and validating an override), and otherwise fall through to
the model-assisted path. -/
def decideCategory (env : Env) (cache : List CachedCategory)
    (merchantName : String) (now : Nat) :
    CategoryDecision × List CachedCategory × List CacheEffect :=
  if env.categories.isEmpty then
    (CategoryDecision.skip "No categories configured in Firefly", cache, [])
  else
    match CacheService.get merchantName cache with
    | none => llmPath env cache merchantName now
    | some cached =>
      if env.categories.any (fun c => c.id = cached.categoryId) then
        match analyzeHistory cached env.recentTxns with
        | CategoryDecision.fireflyOverride oid oname =>
          if env.categories.any (fun c => c.id = oid) then
            (CategoryDecision.fireflyOverride oid oname,
             CacheService.updateFromOverride merchantName oname oid now cache,
             [CacheEffect.updateFromOverride merchantName oname oid])
          else
            llmPath env cache merchantName now
        | d => (d, cache, [])
      else
        let r := llmPath env (CacheService.invalidate merchantName cache) merchantName now
        (r.1, r.2.1, CacheEffect.invalidate merchantName :: r.2.2)

/-- A call to the transaction-update collaborator
(`fireflyService.updateTransactionCategory`); `tags` is the raw serialized
serialized tag list. -/
inductive WorkerAction where
  | updateTransaction (transactionId categoryId tags : String)
deriving DecidableEq, Repr

/-- Embeds `processJob(job)`: decide a category for the merchant of the
job; a `skip` decision returns without touching the transaction, any other
decision applies the decided category id to the transaction of the job. -/
def processJob (env : Env) (cache : List CachedCategory) (job : Job) (now : Nat) :
    List WorkerAction × List CachedCategory :=
  let r := decideCategory env cache job.merchantName now
  match r.1 with
  | CategoryDecision.skip _ => ([], r.2.1)
  | CategoryDecision.cache cid _ =>
    ([WorkerAction.updateTransaction job.transactionId cid job.tags], r.2.1)
  | CategoryDecision.fireflyOverride cid _ =>
    ([WorkerAction.updateTransaction job.transactionId cid job.tags], r.2.1)
  | CategoryDecision.llm cid _ =>
    ([WorkerAction.updateTransaction job.transactionId cid job.tags], r.2.1)

/-- One tick of the worker loop (the inner `poll` of `startWorker`):
dequeue; when a job
was claimed, process it and mark it completed, unless the transaction update
was attempted and failed, in which case the job is failed with the default
`maxRetries = 3`.  Returns the job store, the cache and the collaborator
calls made. -/
def pollStep (env : Env) (now : Nat) (jobs : List Job)
    (cache : List CachedCategory) :
    List Job × List CachedCategory × List WorkerAction :=
  match QueueService.dequeue now jobs with
  | (none, jobsAfter) => (jobsAfter, cache, [])
  | (some job, jobsAfter) =>
    let pr := processJob env cache job now
    if pr.1.isEmpty || env.updateSucceeds then
      (QueueService.complete now job.id jobsAfter, pr.2, pr.1)
    else
      (QueueService.fail now job.id "Failed to update transaction" 3 jobsAfter,
       pr.2, pr.1)

/-! ### Sample values used by concrete witnesses and counterexamples -/

/-- A fresh pending job as `enqueue` creates it. -/
def sampleJob : Job where
  id := 1
  transactionId := "t1"
  merchantName := "Acme"
  description := "widgets"
  amount := "12.34"
  tags := "[]"
  status := JobStatus.pending
  attempts := 0
  error := none
  createdAt := 0
  updatedAt := 0

/-- The same job after exhausting its retries. -/
def sampleFailedJob : Job :=
  { sampleJob with status := JobStatus.failed, attempts := 3, error := some "boom" }

/-- A cached Groceries memo for the sample merchant. -/
def sampleCached : CachedCategory where
  merchantName := "Acme"
  categoryName := "Groceries"
  categoryId := "1"
  createdAt := 0
  updatedAt := 0

/-- A history transaction manually categorized as Dining. -/
def sampleDiningTx (i : String) : TransactionInfo where
  id := i
  description := "meal"
  destinationName := "Acme"
  categoryId := some "7"
  categoryName := some "Dining"
  amount := "9.99"
  date := "2024-01-01"

/-- A history transaction categorized as the cached Groceries. -/
def sampleGroceryTx : TransactionInfo where
  id := "g"
  description := "food"
  destinationName := "Acme"
  categoryId := some "1"
  categoryName := some "Groceries"
  amount := "5.00"
  date := "2024-01-02"

/-- A two-category Firefly category list. -/
def sampleCategories : List Category :=
  [{ id := "1", name := "Groceries" }, { id := "7", name := "Dining" }]

/-! ### Helper lemmas -/

theorem oldestPending_mem {s : List Job} {r : Job}
    (h : QueueService.oldestPending s = some r) : r ∈ s := by
  induction s with
  | nil => simp [QueueService.oldestPending] at h
  | cons x rest ih =>
    simp only [QueueService.oldestPending] at h
    by_cases hx : x.status = JobStatus.pending
    · simp only [hx, if_true] at h
      cases hrec : QueueService.oldestPending rest with
      | none =>
        simp only [hrec] at h
        obtain rfl := Option.some.inj h
        exact List.mem_cons_self _ _
      | some k =>
        simp only [hrec] at h
        by_cases hlt : k.createdAt < x.createdAt
        · simp only [hlt, if_true] at h
          obtain rfl := Option.some.inj h
          exact List.mem_cons_of_mem _ (ih hrec)
        · simp only [hlt, if_false] at h
          obtain rfl := Option.some.inj h
          exact List.mem_cons_self _ _
    · simp only [hx, if_false] at h
      exact List.mem_cons_of_mem _ (ih h)

theorem oldestPending_status {s : List Job} {r : Job}
    (h : QueueService.oldestPending s = some r) : r.status = JobStatus.pending := by
  induction s with
  | nil => simp [QueueService.oldestPending] at h
  | cons x rest ih =>
    simp only [QueueService.oldestPending] at h
    by_cases hx : x.status = JobStatus.pending
    · simp only [hx, if_true] at h
      cases hrec : QueueService.oldestPending rest with
      | none =>
        simp only [hrec] at h
        obtain rfl := Option.some.inj h
        exact hx
      | some k =>
        simp only [hrec] at h
        by_cases hlt : k.createdAt < x.createdAt
        · simp only [hlt, if_true] at h
          obtain rfl := Option.some.inj h
          exact ih hrec
        · simp only [hlt, if_false] at h
          obtain rfl := Option.some.inj h
          exact hx
    · simp only [hx, if_false] at h
      exact ih h

theorem oldestPending_none {s : List Job}
    (h : QueueService.oldestPending s = none) :
    ∀ x ∈ s, x.status ≠ JobStatus.pending := by
  induction s with
  | nil => intro x hx; simp at hx
  | cons x rest ih =>
    intro y hy
    simp only [QueueService.oldestPending] at h
    by_cases hx : x.status = JobStatus.pending
    · simp only [hx, if_true] at h
      cases hrec : QueueService.oldestPending rest <;> simp [hrec] at h
      split at h <;> simp at h
    · simp only [hx, if_false] at h
      rcases List.mem_cons.mp hy with hxy | hyr
      · exact hxy ▸ hx
      · exact ih h y hyr

theorem oldestPending_min {s : List Job} {r : Job}
    (h : QueueService.oldestPending s = some r) :
    ∀ x ∈ s, x.status = JobStatus.pending → r.createdAt ≤ x.createdAt := by
  induction s generalizing r with
  | nil => simp [QueueService.oldestPending] at h
  | cons x rest ih =>
    intro y hy hyst
    simp only [QueueService.oldestPending] at h
    by_cases hx : x.status = JobStatus.pending
    · simp only [hx, if_true] at h
      cases hrec : QueueService.oldestPending rest with
      | none =>
        simp only [hrec] at h
        rcases List.mem_cons.mp hy with hxy | hyr
        · cases h; rw [hxy]
        · exact absurd hyst (oldestPending_none hrec y hyr)
      | some k =>
        simp only [hrec] at h
        rcases List.mem_cons.mp hy with rfl | hyr
        · by_cases hlt : k.createdAt < y.createdAt
          · simp only [hlt, if_true] at h
            obtain rfl := Option.some.inj h
            exact Nat.le_of_lt hlt
          · simp only [hlt, if_false] at h
            obtain rfl := Option.some.inj h
            exact Nat.le_refl _
        · by_cases hlt : k.createdAt < x.createdAt
          · simp only [hlt, if_true] at h
            obtain rfl := Option.some.inj h
            exact ih hrec y hyr hyst
          · simp only [hlt, if_false] at h
            obtain rfl := Option.some.inj h
            exact Nat.le_trans (Nat.le_of_not_lt hlt) (ih hrec y hyr hyst)
    · simp only [hx, if_false] at h
      rcases List.mem_cons.mp hy with rfl | hyr
      · exact absurd hyst hx
      · exact ih h y hyr hyst

theorem mem_map_update {s : List Job} {x : Job} (g : Job → Job) (jobId : Nat)
    (hx : x ∈ s) :
    (if x.id = jobId then g x else x)
      ∈ s.map (fun y => if y.id = jobId then g y else y) :=
  List.mem_map_of_mem _ hx

theorem map_update_id {s : List Job} (g : Job → Job) (jobId : Nat)
    (h : ∀ x ∈ s, x.id ≠ jobId) :
    s.map (fun y => if y.id = jobId then g y else y) = s := by
  rw [List.map_congr_left (fun x hx => if_neg (h x hx))]
  simp

/-! ### C1 -/

/-- C1 (amended): `dequeue` selects a stored `pending` job whose `createdAt`
is minimal among pending jobs, marks the stored row `processing` with its
attempt count incremented by one and `updatedAt` refreshed, and returns a
view of the row with the attempt count incremented but the `status` (and
`updatedAt`) as they were read before the transition — the status of the
returned view is
status is `pending`, not `processing`.  With no pending job it returns
`none` and leaves the store unchanged. -/
theorem dequeue_claims_oldest_pending (now : Nat) (s : List Job) :
    (∀ v rest, QueueService.dequeue now s = (some v, rest) →
      ∃ r, r ∈ s ∧ r.status = JobStatus.pending ∧
        (∀ x ∈ s, x.status = JobStatus.pending → r.createdAt ≤ x.createdAt) ∧
        v = { r with attempts := r.attempts + 1 } ∧
        v.status = JobStatus.pending ∧
        rest = s.map (fun x => if x.id = r.id then
          { x with status := JobStatus.processing, attempts := x.attempts + 1,
                   updatedAt := now } else x))
    ∧ ((QueueService.dequeue now s).1 = none → QueueService.dequeue now s = (none, s)) := by
  constructor
  · intro v rest h
    unfold QueueService.dequeue at h
    cases hop : QueueService.oldestPending s with
    | none => rw [hop] at h; exact absurd (congrArg Prod.fst h) (by simp)
    | some row =>
      rw [hop] at h
      obtain ⟨hv, hrest⟩ := Prod.mk.injEq .. ▸ h
      obtain rfl := Option.some.inj hv
      exact ⟨row, oldestPending_mem hop, oldestPending_status hop,
        oldestPending_min hop, rfl, by simpa using oldestPending_status hop,
        hrest.symm⟩
  · intro h1
    unfold QueueService.dequeue at h1 ⊢
    cases hop : QueueService.oldestPending s with
    | none => rfl
    | some row => rw [hop] at h1; exact absurd h1 (by simp)

/-- C1 witness: on a one-job store the claimed view keeps status `pending`. -/
theorem dequeue_claims_oldest_pending_witness :
    ({ sampleJob with attempts := 1 } : Job).status = JobStatus.pending := by
  obtain ⟨r, -, -, -, -, hst, -⟩ :=
    (dequeue_claims_oldest_pending 5 [sampleJob]).1 _ _ rfl
  exact hst

/-- C1 counterexample: dequeuing a store holding one fresh pending job
returns the job view with status still `pending`, not `processing`, so the
claimed "post-increment view (... and status processing)" fails. -/
theorem dequeue_view_not_processing_cex :
    (QueueService.dequeue 5 [sampleJob]).1.map Job.status = some JobStatus.pending
    ∧ ¬ (QueueService.dequeue 5 [sampleJob]).1.map Job.status
        = some JobStatus.processing := by
  exact ⟨rfl, by decide⟩

/-! ### C2 -/

/-- C2: `fail` with the default `maxRetries = 3` reads the stored
attempt count and transitions it back to `pending` with the error recorded
while `attempts < 3`, and to terminal `failed` with the error recorded
otherwise; rows with other ids are untouched.  `dequeue` only ever claims a
stored `pending` row, so a `failed` job is never claimed again.  A job that
is claimed and failed three consecutive times ends `failed` with the error
preserved, is not claimed by a later `dequeue`, and is not counted by
`getPendingCount`. -/
theorem fail_retry_exhaustion (now : Nat) (s : List Job) (jobId : Nat)
    (msg : String) (j : Job)
    (hj : s.find? (fun x => x.id = jobId) = some j) :
    (j.attempts < 3 → ∀ x ∈ s, x.id = jobId →
      { x with status := JobStatus.pending, error := some msg, updatedAt := now }
        ∈ QueueService.fail now jobId msg 3 s)
    ∧ (3 ≤ j.attempts → ∀ x ∈ s, x.id = jobId →
      { x with status := JobStatus.failed, error := some msg, updatedAt := now }
        ∈ QueueService.fail now jobId msg 3 s)
    ∧ (∀ x ∈ s, x.id ≠ jobId → x ∈ QueueService.fail now jobId msg 3 s)
    ∧ (∀ (n : Nat) (t : List Job) (v : Job) (rest : List Job),
        QueueService.dequeue n t = (some v, rest) →
        ∃ r, r ∈ t ∧ r.status = JobStatus.pending
          ∧ v = { r with attempts := r.attempts + 1 })
    ∧ (∀ (k : Job), k.status = JobStatus.pending → k.attempts = 0 →
        ∀ n₁ n₂ n₃ n₄ n₅ n₆ n₇ : Nat,
        QueueService.fail n₆ k.id msg 3
            ((QueueService.dequeue n₅
              (QueueService.fail n₄ k.id msg 3
                ((QueueService.dequeue n₃
                  (QueueService.fail n₂ k.id msg 3
                    ((QueueService.dequeue n₁ [k]).2))).2))).2)
          = [{ k with status := JobStatus.failed, attempts := 3, error := some msg,
                      updatedAt := n₆ }]
        ∧ QueueService.dequeue n₇ [{ k with status := JobStatus.failed, attempts := 3,
                                            error := some msg, updatedAt := n₆ }]
          = (none, [{ k with status := JobStatus.failed, attempts := 3,
                             error := some msg, updatedAt := n₆ }])
        ∧ QueueService.getPendingCount [{ k with status := JobStatus.failed,
                                                 attempts := 3, error := some msg,
                                                 updatedAt := n₆ }] = 0) := by
  refine ⟨fun hlt x hx hid => ?_, fun hge x hx hid => ?_, fun x hx hid => ?_,
    ?_, fun k hk hk0 n₁ n₂ n₃ n₄ n₅ n₆ n₇ => ?_⟩
  · simp only [QueueService.fail, hj]
    rw [if_pos hlt]
    have := mem_map_update (fun y =>
      { y with status := JobStatus.pending, error := some msg, updatedAt := now })
      jobId hx
    rwa [if_pos hid] at this
  · simp only [QueueService.fail, hj]
    rw [if_neg (Nat.not_lt.mpr hge)]
    have := mem_map_update (fun y =>
      { y with status := JobStatus.failed, error := some msg, updatedAt := now })
      jobId hx
    rwa [if_pos hid] at this
  · simp only [QueueService.fail, hj]
    by_cases hlt : j.attempts < 3
    · rw [if_pos hlt]
      have := mem_map_update (fun y =>
        { y with status := JobStatus.pending, error := some msg, updatedAt := now })
        jobId hx
      rwa [if_neg hid] at this
    · rw [if_neg hlt]
      have := mem_map_update (fun y =>
        { y with status := JobStatus.failed, error := some msg, updatedAt := now })
        jobId hx
      rwa [if_neg hid] at this
  · intro n t v rest h
    unfold QueueService.dequeue at h
    cases hop : QueueService.oldestPending t with
    | none => rw [hop] at h; exact absurd (congrArg Prod.fst h) (by simp)
    | some row =>
      rw [hop] at h
      obtain ⟨hv, -⟩ := Prod.mk.injEq .. ▸ h
      obtain rfl := Option.some.inj hv
      exact ⟨row, oldestPending_mem hop, oldestPending_status hop, rfl⟩
  · refine ⟨?_, ?_, ?_⟩ <;>
      simp [QueueService.dequeue, QueueService.oldestPending, QueueService.fail,
        QueueService.getPendingCount, hk, hk0]

/-- C2 witness: the sample job, claimed and failed three times, is failed
with zero pending jobs left. -/
theorem fail_retry_exhaustion_witness :
    QueueService.getPendingCount
      [{ sampleJob with
           status := JobStatus.failed, attempts := 3, error := some "boom",
           updatedAt := 6 }] = 0 := by
  have h := (fail_retry_exhaustion 1 [sampleJob] 1 "boom" sampleJob rfl).2.2.2.2
    sampleJob rfl rfl 1 2 3 4 5 6 7
  exact h.2.2

/-! ### C3 -/

/-- C3 (amended): `complete(jobId)` unconditionally sets the status of every
stored job with that id to `completed` and refreshes its `updatedAt` —
also when the job was already terminal (`completed` or `failed`), whose
stored record therefore does change; it is a no-op exactly when no stored
job has that id. -/
theorem complete_unconditional (now : Nat) (s : List Job) (jobId : Nat) :
    ((∀ x ∈ s, x.id ≠ jobId) → QueueService.complete now jobId s = s)
    ∧ (∀ x ∈ s, x.id = jobId →
        { x with status := JobStatus.completed, updatedAt := now }
          ∈ QueueService.complete now jobId s)
    ∧ (∀ x ∈ s, x.id ≠ jobId → x ∈ QueueService.complete now jobId s) := by
  refine ⟨fun h => map_update_id _ _ h, fun x hx hid => ?_, fun x hx hid => ?_⟩
  · have := mem_map_update
      (fun y => { y with status := JobStatus.completed, updatedAt := now }) jobId hx
    rwa [if_pos hid] at this
  · have := mem_map_update
      (fun y => { y with status := JobStatus.completed, updatedAt := now }) jobId hx
    rwa [if_neg hid] at this

/-- C3 witness: completing the job with id 1 marks it completed, and a store
without id 1 is untouched. -/
theorem complete_unconditional_witness :
    ({ sampleJob with status := JobStatus.completed, updatedAt := 7 } : Job)
      ∈ QueueService.complete 7 1 [sampleJob]
    ∧ QueueService.complete 7 2 [sampleJob] = [sampleJob] := by
  refine ⟨(complete_unconditional 7 [sampleJob] 1).2.1 sampleJob (by decide) rfl, ?_⟩
  exact (complete_unconditional 7 [sampleJob] 2).1 (by decide)

/-- C3 counterexample: completing a `failed` (terminal) job is not a no-op —
the status of the stored record flips to `completed` — so the claimed
"idempotent no-op when the job is already terminal" fails. -/
theorem complete_on_failed_cex :
    sampleFailedJob.status = JobStatus.failed
    ∧ QueueService.complete 7 1 [sampleFailedJob]
        = [{ sampleFailedJob with status := JobStatus.completed, updatedAt := 7 }]
    ∧ ¬ QueueService.complete 7 1 [sampleFailedJob] = [sampleFailedJob] := by
  exact ⟨rfl, rfl, by decide⟩

/-! ### C8 -/

/-- C8: on store initialization every `processing` job is reset to `pending`
(with `updatedAt` refreshed), every other job is untouched, afterwards no
job is `processing`, the pending count grows by exactly the number of reset
jobs, and running the reset a second time changes nothing (it acts exactly
once per process start). -/
theorem init_resets_processing (now : Nat) (s : List Job) :
    (∀ j ∈ QueueService.init now s, j.status ≠ JobStatus.processing)
    ∧ QueueService.getPendingCount (QueueService.init now s)
        = QueueService.getPendingCount s
          + (s.filter fun x => x.status = JobStatus.processing).length
    ∧ (∀ j ∈ s, j.status = JobStatus.processing →
        { j with status := JobStatus.pending, updatedAt := now }
          ∈ QueueService.init now s)
    ∧ (∀ j ∈ s, j.status ≠ JobStatus.processing → j ∈ QueueService.init now s)
    ∧ QueueService.init now (QueueService.init now s) = QueueService.init now s := by
  refine ⟨?_, ?_, ?_, ?_, ?_⟩
  · intro j hj
    obtain ⟨x, -, hfx⟩ := List.mem_map.mp hj
    by_cases hx : x.status = JobStatus.processing
    · rw [if_pos hx] at hfx; rw [← hfx]; simp
    · rw [if_neg hx] at hfx; rw [← hfx]; exact hx
  · unfold QueueService.init QueueService.getPendingCount
    induction s with
    | nil => rfl
    | cons x rest ih =>
      by_cases hx : x.status = JobStatus.processing
      · simp only [List.map_cons, List.filter_cons, if_pos hx, hx]
        simp
        omega
      · by_cases hp : x.status = JobStatus.pending
        · simp only [List.map_cons, List.filter_cons, if_neg hx, hp]
          simp [hx, hp]
          omega
        · simp only [List.map_cons, List.filter_cons, if_neg hx]
          simp [hx, hp]
          omega
  · intro j hj hjp
    refine List.mem_map.mpr ⟨j, hj, ?_⟩
    simp [hjp]
  · intro j hj hjp
    refine List.mem_map.mpr ⟨j, hj, ?_⟩
    simp [hjp]
  · unfold QueueService.init
    rw [List.map_map]
    refine List.map_congr_left fun x hx => ?_
    by_cases hxp : x.status = JobStatus.processing
    · simp [Function.comp, hxp]
    · simp [Function.comp, hxp]

theorem parseResponse_mem {content : String} {names : List String} {c : String}
    (h : (LLMService.parseResponse content names).category = some c) :
    c ∈ names := by
  simp only [LLMService.parseResponse] at h
  cases h1 : names.find? (fun x => strToLower x = strToLower (cleanResponse content)) with
  | some e =>
    rw [h1] at h
    simp only at h
    obtain rfl := Option.some.inj h
    exact List.mem_of_find?_eq_some h1
  | none =>
    rw [h1] at h
    cases h2 : names.find? (fun x =>
        strIncludes (strToLower x) (strToLower (cleanResponse content))
        || strIncludes (strToLower (cleanResponse content)) (strToLower x)) with
    | some p =>
      rw [h2] at h
      simp only at h
      obtain rfl := Option.some.inj h
      exact List.mem_of_find?_eq_some h2
    | none =>
      rw [h2] at h
      simp at h

theorem parseResponse_exact (content : String) (names : List String) :
    ∀ e, names.find? (fun c => strToLower c = strToLower (cleanResponse content)) = some e →
      (LLMService.parseResponse content names).category = some e := by
  intro e h
  simp only [LLMService.parseResponse, h]

theorem parseResponse_no_exact (content : String) (names : List String)
    (h : names.find? (fun c => strToLower c = strToLower (cleanResponse content)) = none) :
    (LLMService.parseResponse content names).category
      = names.find? (fun c =>
          strIncludes (strToLower c) (strToLower (cleanResponse content))
          || strIncludes (strToLower (cleanResponse content)) (strToLower c)) := by
  simp only [LLMService.parseResponse, h]
  cases h2 : names.find? (fun c =>
      strIncludes (strToLower c) (strToLower (cleanResponse content))
      || strIncludes (strToLower (cleanResponse content)) (strToLower c)) <;> simp

theorem find_name_of_mem {cats : List Category} {nm : String}
    (h : nm ∈ cats.map Category.name) :
    ∃ cat, cats.find? (fun c => c.name = nm) = some cat ∧ cat.name = nm := by
  cases hf : cats.find? (fun c => c.name = nm) with
  | none =>
    obtain ⟨cat, hmem, hname⟩ := List.mem_map.mp h
    exact absurd (decide_eq_true_iff.mpr hname)
      (by simpa using List.find?_eq_none.mp hf cat hmem)
  | some cat =>
    have hp := List.find?_some hf
    exact ⟨cat, rfl, by simpa using hp⟩

theorem llmPath_not_cache (env : Env) (cache : List CachedCategory)
    (m : String) (now : Nat) :
    (∀ i n, (llmPath env cache m now).1 ≠ CategoryDecision.cache i n)
    ∧ (∀ i n, (llmPath env cache m now).1 ≠ CategoryDecision.fireflyOverride i n) := by
  constructor <;> intro i n <;>
  · simp only [llmPath]
    cases hc : (LLMService.categorize env.categories env.llmContent).category with
    | none => simp [truthy]
    | some nm =>
      cases hf : env.categories.find? (fun c => c.name = nm) with
      | none => by_cases hemp : nm.data.isEmpty <;> simp [truthy, hemp, hf]
      | some cat => by_cases hemp : nm.data.isEmpty <;> simp [truthy, hemp, hf]

theorem get_invalidate (m : String) (cache : List CachedCategory) :
    CacheService.get m (CacheService.invalidate m cache) = none := by
  unfold CacheService.get CacheService.invalidate
  rw [List.find?_eq_none]
  intro e he
  have h2 := (List.mem_filter.mp he).2
  simp only [Bool.not_eq_true'] at h2
  simp [h2]

/-! ### C4 -/

/-- C4: on a cache hit, history analysis returns the cached decision when the
categorized subset is empty, when every categorized transaction matches the
cached category name, and in every mixed case; it returns an override
carrying the category id and name of the first (most recent) categorized
transaction exactly when every categorized transaction differs from the
cached name. -/
theorem analyzeHistory_policy (cached : CachedCategory)
    (txns : List TransactionInfo) :
    (categorizedOf txns = [] →
      analyzeHistory cached txns
        = CategoryDecision.cache cached.categoryId cached.categoryName)
    ∧ (∀ m rest, categorizedOf txns = m :: rest →
        ((∀ tx ∈ categorizedOf txns, tx.categoryName = some cached.categoryName) →
          analyzeHistory cached txns
            = CategoryDecision.cache cached.categoryId cached.categoryName)
        ∧ ((∀ tx ∈ categorizedOf txns, ¬ tx.categoryName = some cached.categoryName) →
          analyzeHistory cached txns
            = CategoryDecision.fireflyOverride (m.categoryId.getD "")
                (m.categoryName.getD ""))
        ∧ ((¬ ∀ tx ∈ categorizedOf txns, tx.categoryName = some cached.categoryName) →
          (¬ ∀ tx ∈ categorizedOf txns, ¬ tx.categoryName = some cached.categoryName) →
          analyzeHistory cached txns
            = CategoryDecision.cache cached.categoryId cached.categoryName)) := by
  constructor
  · intro h
    simp only [analyzeHistory, h]
  · intro m rest hcat
    have hmem : ∀ tx, tx ∈ m :: rest → tx ∈ categorizedOf txns :=
      fun tx htx => hcat ▸ htx
    refine ⟨fun hall => ?_, fun hdiff => ?_, fun hnall hndiff => ?_⟩
    · have hb : ((m :: rest).all fun tx =>
          decide (tx.categoryName = some cached.categoryName)) = true :=
        List.all_eq_true.mpr fun tx htx =>
          decide_eq_true_iff.mpr (hall tx (hmem tx htx))
      simp [analyzeHistory, hcat, hb]
    · have hb : ((m :: rest).all fun tx =>
          decide (tx.categoryName = some cached.categoryName)) = false := by
        rw [List.all_cons]
        have : decide (m.categoryName = some cached.categoryName) = false := by
          simpa using hdiff m (hmem m (List.mem_cons_self m rest))
        rw [this, Bool.false_and]
      have hb2 : ((m :: rest).all fun tx =>
          !decide (tx.categoryName = some cached.categoryName)) = true :=
        List.all_eq_true.mpr fun tx htx => by
          simpa using hdiff tx (hmem tx htx)
      simp [analyzeHistory, hcat, hb, hb2]
    · have hb : ((m :: rest).all fun tx =>
          decide (tx.categoryName = some cached.categoryName)) = false := by
        rcases Bool.eq_false_or_eq_true ((m :: rest).all fun tx =>
          decide (tx.categoryName = some cached.categoryName)) with h | h
        · exact absurd (fun tx htx => by
            have := List.all_eq_true.mp h tx (hcat ▸ htx)
            exact decide_eq_true_iff.mp this) hnall
        · exact h
      have hb2 : ((m :: rest).all fun tx =>
          !decide (tx.categoryName = some cached.categoryName)) = false := by
        rcases Bool.eq_false_or_eq_true ((m :: rest).all fun tx =>
          !decide (tx.categoryName = some cached.categoryName)) with h | h
        · exact absurd (fun tx htx => by
            have := List.all_eq_true.mp h tx (hcat ▸ htx)
            simpa using this) hndiff
        · exact h
      simp [analyzeHistory, hcat, hb, hb2]

/-- C4 witness: three Dining transactions against a cached Groceries memo
yield an override to Dining from the most recent one; two Dining plus one
Groceries is a mixed signal and keeps the cache decision. -/
theorem analyzeHistory_policy_witness :
    analyzeHistory sampleCached
        [sampleDiningTx "a", sampleDiningTx "b", sampleDiningTx "c"]
      = CategoryDecision.fireflyOverride "7" "Dining"
    ∧ analyzeHistory sampleCached
        [sampleDiningTx "a", sampleDiningTx "b", sampleGroceryTx]
      = CategoryDecision.cache "1" "Groceries" := by
  constructor
  · exact ((analyzeHistory_policy sampleCached
      [sampleDiningTx "a", sampleDiningTx "b", sampleDiningTx "c"]).2
      (sampleDiningTx "a") [sampleDiningTx "b", sampleDiningTx "c"]
      (by decide)).2.1 (by decide)
  · exact ((analyzeHistory_policy sampleCached
      [sampleDiningTx "a", sampleDiningTx "b", sampleGroceryTx]).2
      (sampleDiningTx "a") [sampleDiningTx "b", sampleGroceryTx]
      (by decide)).2.2 (by decide) (by decide)

/-! ### C5 -/

/-- A cache entry whose category id does not occur in `sampleCategories`. -/
def staleCached : CachedCategory where
  merchantName := "Acme"
  categoryName := "Old"
  categoryId := "9"
  createdAt := 0
  updatedAt := 0

/-- The collaborator responses used by the engine witnesses: the sample
category list, no history, no search context, a classifier reply naming
Groceries, and a transaction update that succeeds. -/
def sampleEnv : Env where
  categories := sampleCategories
  recentTxns := []
  merchantContext := none
  llmContent := "Groceries"
  updateSucceeds := true

/-- C5: with a cache hit whose stored category id is absent from the fetched
category list, the decision engine deletes the cache entry (the invalidate
effect is performed first and the entry is gone), never returns a cache (or
override) decision in that invocation, and proceeds to the model-assisted
path on the invalidated cache. -/
theorem stale_cache_invalidation (env : Env) (cache : List CachedCategory)
    (m : String) (now : Nat) (cached : CachedCategory)
    (hget : CacheService.get m cache = some cached)
    (hne : env.categories ≠ [])
    (habsent : ∀ c ∈ env.categories, c.id ≠ cached.categoryId) :
    decideCategory env cache m now
      = ((llmPath env (CacheService.invalidate m cache) m now).1,
         (llmPath env (CacheService.invalidate m cache) m now).2.1,
         CacheEffect.invalidate m
           :: (llmPath env (CacheService.invalidate m cache) m now).2.2)
    ∧ (decideCategory env cache m now).2.2.head? = some (CacheEffect.invalidate m)
    ∧ (∀ i n, (decideCategory env cache m now).1 ≠ CategoryDecision.cache i n)
    ∧ (∀ i n, (decideCategory env cache m now).1
        ≠ CategoryDecision.fireflyOverride i n)
    ∧ CacheService.get m (CacheService.invalidate m cache) = none := by
  have hempty : ¬ env.categories.isEmpty = true :=
    fun h => hne (List.isEmpty_iff.mp h)
  have hany : (env.categories.any fun c => decide (c.id = cached.categoryId))
      = false :=
    List.any_eq_false.mpr fun c hc => by simpa using habsent c hc
  have hmain : decideCategory env cache m now
      = ((llmPath env (CacheService.invalidate m cache) m now).1,
         (llmPath env (CacheService.invalidate m cache) m now).2.1,
         CacheEffect.invalidate m
           :: (llmPath env (CacheService.invalidate m cache) m now).2.2) := by
    simp [decideCategory, hget, hany, if_neg hempty]
    exact hne
  refine ⟨hmain, ?_, ?_, ?_, get_invalidate m cache⟩
  · rw [hmain]
    rfl
  · intro i n
    rw [hmain]
    exact (llmPath_not_cache env (CacheService.invalidate m cache) m now).1 i n
  · intro i n
    rw [hmain]
    exact (llmPath_not_cache env (CacheService.invalidate m cache) m now).2 i n

/-- C5 witness: a stale cached id "9" against the sample category list is
invalidated first. -/
theorem stale_cache_invalidation_witness :
    (decideCategory sampleEnv [staleCached] "Acme" 9).2.2.head?
      = some (CacheEffect.invalidate "Acme") :=
  (stale_cache_invalidation sampleEnv [staleCached] "Acme" 9 staleCached rfl
    (by decide) (by decide)).2.1

/-! ### C6 -/

/-- C6 (amended): the classifier reply is resolved against the fetched
category names by exact case-insensitive comparison first, then by
case-insensitive substring containment in either direction, else no
category; on a cache miss, a resolved non-empty name yields a `model` (llm)
decision carrying the id and name of the matching category together with a
cache `set` of that mapping, while a JavaScript-falsy result — no proposal,
or a resolved empty name — yields a `skip` decision with no cache write. -/
theorem classifier_resolution (env : Env) (cache : List CachedCategory)
    (m : String) (now : Nat)
    (hne : env.categories ≠ []) (hmiss : CacheService.get m cache = none) :
    ((∃ c ∈ env.categories.map Category.name,
        strToLower c = strToLower (cleanResponse env.llmContent)) →
      ∃ e, (LLMService.categorize env.categories env.llmContent).category = some e
        ∧ e ∈ env.categories.map Category.name
        ∧ strToLower e = strToLower (cleanResponse env.llmContent))
    ∧ ((∀ c ∈ env.categories.map Category.name,
          ¬ strToLower c = strToLower (cleanResponse env.llmContent)) →
       (∃ c ∈ env.categories.map Category.name,
          (strIncludes (strToLower c) (strToLower (cleanResponse env.llmContent))
            || strIncludes (strToLower (cleanResponse env.llmContent)) (strToLower c))
            = true) →
      ∃ p, (LLMService.categorize env.categories env.llmContent).category = some p
        ∧ p ∈ env.categories.map Category.name
        ∧ (strIncludes (strToLower p) (strToLower (cleanResponse env.llmContent))
            || strIncludes (strToLower (cleanResponse env.llmContent)) (strToLower p))
            = true)
    ∧ ((∀ c ∈ env.categories.map Category.name,
          ¬ strToLower c = strToLower (cleanResponse env.llmContent)
          ∧ ¬ (strIncludes (strToLower c) (strToLower (cleanResponse env.llmContent))
              || strIncludes (strToLower (cleanResponse env.llmContent)) (strToLower c))
              = true) →
      (LLMService.categorize env.categories env.llmContent).category = none)
    ∧ (∀ nm,
        (LLMService.categorize env.categories env.llmContent).category = some nm →
        nm.data.isEmpty = false →
      ∃ cat, cat ∈ env.categories ∧ cat.name = nm
        ∧ decideCategory env cache m now
          = (CategoryDecision.llm cat.id cat.name,
             CacheService.set m cat.name cat.id now cache,
             [CacheEffect.set m cat.name cat.id]))
    ∧ (truthy (LLMService.categorize env.categories env.llmContent).category
        = false →
      decideCategory env cache m now
        = (CategoryDecision.skip "LLM could not determine category", cache, [])) := by
  have hempty : ¬ env.categories.isEmpty = true :=
    fun h => hne (List.isEmpty_iff.mp h)
  refine ⟨?_, ?_, ?_, ?_, ?_⟩
  · intro hex
    cases hf : (env.categories.map Category.name).find?
        (fun c => strToLower c = strToLower (cleanResponse env.llmContent)) with
    | none =>
      obtain ⟨c, hc, hceq⟩ := hex
      exact absurd (decide_eq_true_iff.mpr hceq)
        (by simpa using List.find?_eq_none.mp hf c hc)
    | some e =>
      refine ⟨e, parseResponse_exact env.llmContent _ e hf,
        List.mem_of_find?_eq_some hf, ?_⟩
      have hp := List.find?_some hf
      simpa using hp
  · intro hnex hpart
    have hf : (env.categories.map Category.name).find?
        (fun c => strToLower c = strToLower (cleanResponse env.llmContent)) = none :=
      List.find?_eq_none.mpr fun c hc => by simpa using hnex c hc
    have heq := parseResponse_no_exact env.llmContent
      (env.categories.map Category.name) hf
    cases hf2 : (env.categories.map Category.name).find?
        (fun c => strIncludes (strToLower c) (strToLower (cleanResponse env.llmContent))
          || strIncludes (strToLower (cleanResponse env.llmContent)) (strToLower c)) with
    | none =>
      obtain ⟨c, hc, hceq⟩ := hpart
      exact absurd hceq (by simpa using List.find?_eq_none.mp hf2 c hc)
    | some p =>
      refine ⟨p, heq.trans hf2, List.mem_of_find?_eq_some hf2, ?_⟩
      have hp := List.find?_some hf2
      simpa using hp
  · intro hall
    have hf : (env.categories.map Category.name).find?
        (fun c => strToLower c = strToLower (cleanResponse env.llmContent)) = none :=
      List.find?_eq_none.mpr fun c hc => by simpa using (hall c hc).1
    have hf2 : (env.categories.map Category.name).find?
        (fun c => strIncludes (strToLower c) (strToLower (cleanResponse env.llmContent))
          || strIncludes (strToLower (cleanResponse env.llmContent)) (strToLower c)) = none :=
      List.find?_eq_none.mpr fun c hc => by simpa using (hall c hc).2
    have heq := parseResponse_no_exact env.llmContent
      (env.categories.map Category.name) hf
    exact heq.trans hf2
  · intro nm hnm hempN
    have hmem : nm ∈ env.categories.map Category.name :=
      parseResponse_mem (by rw [← LLMService.categorize]; exact hnm)
    obtain ⟨cat, hfind, hname⟩ := find_name_of_mem hmem
    refine ⟨cat, List.mem_of_find?_eq_some hfind, hname, ?_⟩
    simp only [decideCategory, hmiss, if_neg hempty]
    simp [llmPath, hnm, truthy, hempN, hfind]
  · intro hfalsy
    simp only [decideCategory, hmiss, if_neg hempty]
    simp [llmPath, hfalsy]

/-- An environment whose category list holds a single empty-named category,
as firefly.ts produces when the upstream category name is missing (it
defaults the name to the empty string). -/
def emptyNameEnv : Env where
  categories := [{ id := "1", name := "" }]
  recentTxns := []
  merchantContext := none
  llmContent := "Groceries"
  updateSucceeds := true

/-- C6 counterexample: against a category list holding an empty-named
category, the parser resolves that empty name (substring containment with
the empty string always holds), yet the engine guard uses JavaScript
falsiness, so the decision is `skip` with no cache write and in particular
not the `llm` decision for the resolved category — refuting the claimed
"if a category is resolved, the decision is model and the mapping is
cached". -/
theorem classifier_empty_name_cex :
    (LLMService.categorize emptyNameEnv.categories
        emptyNameEnv.llmContent).category = some ""
    ∧ decideCategory emptyNameEnv [] "Acme" 9
        = (CategoryDecision.skip "LLM could not determine category", [], [])
    ∧ (decideCategory emptyNameEnv [] "Acme" 9).1
        ≠ CategoryDecision.llm "1" "" :=
  ⟨rfl, rfl, by decide⟩

/-- C6 witness: the reply "Groceries" against the sample categories resolves
exactly and, on a cache miss, yields a model decision for Groceries. -/
theorem classifier_resolution_witness :
    (decideCategory sampleEnv [] "Acme" 9).1
      = CategoryDecision.llm "1" "Groceries" := by
  obtain ⟨cat, hmem, hname, heq⟩ :=
    (classifier_resolution sampleEnv [] "Acme" 9 (by decide) rfl).2.2.2.1
      "Groceries" rfl rfl
  rw [heq]
  have hcat : cat = { id := "1", name := "Groceries" } := by
    have h2 : cat ∈ sampleCategories := by simpa [sampleEnv] using hmem
    simp only [sampleCategories, List.mem_cons, List.not_mem_nil, or_false] at h2
    rcases h2 with h2 | h2
    · exact h2
    · exact absurd (h2 ▸ hname) (by decide)
  rw [hcat]

/-- C8 witness: a store with one processing job is reset to pending once and
the pending count reflects it. -/
theorem init_resets_processing_witness :
    ({ sampleJob with status := JobStatus.pending, updatedAt := 3 } : Job)
      ∈ QueueService.init 3 [{ sampleJob with status := JobStatus.processing }] := by
  have h := (init_resets_processing 3
    [{ sampleJob with status := JobStatus.processing }]).2.2.1
    { sampleJob with status := JobStatus.processing } (by decide) rfl
  exact h



/-! ### C7 -/

/-- C7: on a cache-hit decision whose history analysis yields an override,
the engine validates the override category id against the fetched list:
when present it persists the override through `updateFromOverride` and
returns it; when absent it discards the override and proceeds to the
model-assisted path, never returning a cache decision in that invocation. -/
theorem override_validation (env : Env) (cache : List CachedCategory)
    (m : String) (now : Nat) (cached : CachedCategory) (oid oname : String)
    (hget : CacheService.get m cache = some cached)
    (hne : env.categories ≠ [])
    (hvalid : ∃ c ∈ env.categories, c.id = cached.categoryId)
    (hover : analyzeHistory cached env.recentTxns
      = CategoryDecision.fireflyOverride oid oname) :
    ((∃ c ∈ env.categories, c.id = oid) →
      decideCategory env cache m now
        = (CategoryDecision.fireflyOverride oid oname,
           CacheService.updateFromOverride m oname oid now cache,
           [CacheEffect.updateFromOverride m oname oid]))
    ∧ ((∀ c ∈ env.categories, c.id ≠ oid) →
      decideCategory env cache m now = llmPath env cache m now
      ∧ (∀ i n, (decideCategory env cache m now).1
          ≠ CategoryDecision.cache i n)) := by
  have hempty : ¬ env.categories.isEmpty = true :=
    fun h => hne (List.isEmpty_iff.mp h)
  have hanyc : (env.categories.any fun c => decide (c.id = cached.categoryId))
      = true := by
    obtain ⟨c, hc, hceq⟩ := hvalid
    exact List.any_eq_true.mpr ⟨c, hc, decide_eq_true_iff.mpr hceq⟩
  constructor
  · intro hex
    have hanyo : (env.categories.any fun c => decide (c.id = oid)) = true := by
      obtain ⟨c, hc, hceq⟩ := hex
      exact List.any_eq_true.mpr ⟨c, hc, decide_eq_true_iff.mpr hceq⟩
    simp only [decideCategory, hget, if_neg hempty, hanyc, hover, hanyo]
    simp
  · intro hnone
    have hanyo : (env.categories.any fun c => decide (c.id = oid)) = false :=
      List.any_eq_false.mpr fun c hc => by simpa using hnone c hc
    have hmain : decideCategory env cache m now = llmPath env cache m now := by
      simp only [decideCategory, hget, if_neg hempty, hanyc, hover, hanyo]
      simp
    exact ⟨hmain, fun i n => hmain ▸ (llmPath_not_cache env cache m now).1 i n⟩

/-- The sample environment with a history of three Dining transactions. -/
def sampleEnvHist : Env :=
  { sampleEnv with
      recentTxns := [sampleDiningTx "a", sampleDiningTx "b", sampleDiningTx "c"] }

/-- C7 witness: a valid Dining override against the cached Groceries memo is
persisted and returned. -/
theorem override_validation_witness :
    decideCategory sampleEnvHist [sampleCached] "Acme" 9
      = (CategoryDecision.fireflyOverride "7" "Dining",
         [{ sampleCached with categoryName := "Dining", categoryId := "7",
                              updatedAt := 9 }],
         [CacheEffect.updateFromOverride "Acme" "Dining" "7"]) := by
  have h := (override_validation sampleEnvHist [sampleCached] "Acme" 9 sampleCached
    "7" "Dining" rfl (by decide)
    ⟨{ id := "1", name := "Groceries" }, by decide, rfl⟩ (by decide)).1
    ⟨{ id := "7", name := "Dining" }, by decide, rfl⟩
  rw [h]
  rfl

/-! ### C9 -/

/-- C9: when the decision for a claimed job is `skip`, the worker tick makes
no transaction-update collaborator call and resolves the job through
`complete`, not through the failure path: the stored job record with the
claimed id ends `completed`. -/
theorem skip_marks_complete (env : Env) (now : Nat) (jobs jobsAfter : List Job)
    (cache : List CachedCategory) (job : Job) (reason : String)
    (hdq : QueueService.dequeue now jobs = (some job, jobsAfter))
    (hskip : (decideCategory env cache job.merchantName now).1
      = CategoryDecision.skip reason) :
    pollStep env now jobs cache
      = (QueueService.complete now job.id jobsAfter,
         (decideCategory env cache job.merchantName now).2.1, [])
    ∧ processJob env cache job now
      = ([], (decideCategory env cache job.merchantName now).2.1)
    ∧ (∀ x ∈ jobsAfter, x.id = job.id →
        { x with status := JobStatus.completed, updatedAt := now }
          ∈ (pollStep env now jobs cache).1) := by
  have hpj : processJob env cache job now
      = ([], (decideCategory env cache job.merchantName now).2.1) := by
    simp only [processJob, hskip]
  have hps : pollStep env now jobs cache
      = (QueueService.complete now job.id jobsAfter,
         (decideCategory env cache job.merchantName now).2.1, []) := by
    simp only [pollStep, hdq, hpj]
    simp
  refine ⟨hps, hpj, fun x hx hid => ?_⟩
  rw [hps]
  have hm := mem_map_update
    (fun y => { y with status := JobStatus.completed, updatedAt := now })
    job.id hx
  rw [if_pos hid] at hm
  exact hm

/-- An environment whose category fetch comes back empty, forcing a skip. -/
def envNoCategories : Env := { sampleEnv with categories := [] }

/-- C9 witness: with an empty category list the claimed sample job is
skipped: no update call is made. -/
theorem skip_marks_complete_witness :
    (pollStep envNoCategories 5 [sampleJob] []).2.2 = ([] : List WorkerAction) := by
  have h := (skip_marks_complete envNoCategories 5 [sampleJob]
    [{ sampleJob with status := JobStatus.processing, attempts := 1,
                      updatedAt := 5 }]
    [] { sampleJob with attempts := 1 } "No categories configured in Firefly"
    rfl rfl).1
  rw [h]

/-! ### C10 -/

/-- C10: the classifier parser only ever proposes a name that is literally an
element of the supplied category-name list (or proposes none); consequently
the exact-name lookup of the decision engine always succeeds and the
"category not found" skip branch is unreachable — the only skip reason the
model path can produce is the no-proposal one. -/
theorem parse_returns_member :
    (∀ (content : String) (names : List String) (c : String),
      (LLMService.parseResponse content names).category = some c → c ∈ names)
    ∧ (∀ (env : Env) (cache : List CachedCategory) (m : String) (now : Nat)
        (reason : String),
        (llmPath env cache m now).1 = CategoryDecision.skip reason →
        reason = "LLM could not determine category") := by
  constructor
  · exact fun content names c h => parseResponse_mem h
  · intro env cache m now reason h
    simp only [llmPath] at h
    cases ht : truthy (LLMService.categorize env.categories env.llmContent).category with
    | false =>
      rw [ht] at h
      simp only [Bool.not_false, if_true] at h
      injection h with h2
      exact h2.symm
    | true =>
      rw [ht] at h
      simp only [Bool.not_true] at h
      rw [if_neg Bool.false_ne_true] at h
      cases hc : (LLMService.categorize env.categories env.llmContent).category with
      | none =>
        rw [hc] at ht
        simp [truthy] at ht
      | some nm =>
        have hmem : nm ∈ env.categories.map Category.name := parseResponse_mem hc
        obtain ⟨cat, hfind, -⟩ := find_name_of_mem hmem
        rw [hc] at h
        simp only [Option.getD_some] at h
        simp only [hfind] at h
        simp at h

/-- C10 witness: the reply "Groceries" resolves to a member of the supplied
name list. -/
theorem parse_returns_member_witness :
    "Groceries" ∈ ["Groceries", "Dining"] :=
  parse_returns_member.1 "Groceries" ["Groceries", "Dining"] "Groceries" rfl
